import Mathlib

/-!
Verification of the grammar-graph FIRST-set computation.

The program represents a context-free grammar as a graph of `Node` records
(terminal or non-terminal reference, with `Suc` sequencing and `Alt`
alternative links) owned by named `Header` records, and computes FIRST sets
by a recursive walk with a per-call visited set.

The embedding uses an arena: nodes and headers live in lists and the Go
pointers `Suc`, `Alt`, `Nsym`, `Entry` become optional indices.  The Go
recursion shares one visited map across the whole call, which the embedding
models by threading the visited set through the recursion; the unbounded Go
recursion is modelled with a fuel parameter, and fuel adequacy
(`g.nodes.length + 1` always suffices) is proved, which is the termination
of the original recursion.
-/

namespace GrammarFirst

/-- `Node` from the source: a tagged record that is either a terminal
(`Terminal = true`, carrying `Tsym`) or a non-terminal reference
(`Terminal = false`, carrying `Nsym`, an index into the header arena),
with optional successor (`Suc`) and alternative (`Alt`) links given as
indices into the node arena. -/
structure Node where
  Terminal : Bool := false
  Tsym : String := ""
  Nsym : Option Nat := none
  Suc : Option Nat := none
  Alt : Option Nat := none
deriving DecidableEq, Repr

/-- `Header` from the source: a named non-terminal with an optional entry
node (index into the node arena). -/
structure Header where
  Sym : String := ""
  Entry : Option Nat := none
deriving DecidableEq, Repr

/-- The arena holding one grammar graph: the Go heap of `Node` and `Header`
records, addressed by list index in place of pointers. -/
structure Graph where
  nodes : List Node := []
  headers : List Header := []
deriving DecidableEq, Repr

/-- The guarded dereference `node.Nsym.Entry` from the source: the Go code
recurses into the referenced header's entry only when `node.Nsym != nil`
and `node.Nsym.Entry != nil`; this returns `some entry` exactly in that
case. -/
def entryLookup (g : Graph) (node : Node) : Option Nat :=
  node.Nsym.bind fun h => (g.headers[h]?).bind Header.Entry

/-- `Node.First` from the source, with an explicit fuel bound on recursion
depth.  Mirrors the Go body: return the empty set for a nil node; return
the empty set if the node is already in the visited map; otherwise mark it
visited, contribute its `Tsym` if it is a terminal, else recurse into the
referenced header's entry, and finally recurse on `Alt`.  The Go guards
`node.Nsym != nil && node.Nsym.Entry != nil` and `node.Alt != nil` skip a
recursion that would contribute nothing and leave the visited map
unchanged — exactly what a recursive call on the absent (`none`) argument
returns here, so the guards and the nil-node base case coincide.  The
shared mutable visited map of the Go code is threaded through and
returned. -/
def Node.FirstF (g : Graph) : Nat → Option Nat → Finset Nat → Finset String × Finset Nat
  | 0, _, visited => (∅, visited)
  | _ + 1, none, visited => (∅, visited)
  | fuel + 1, some i, visited =>
    if i ∈ visited then (∅, visited)
    else
      match g.nodes[i]? with
      | none => (∅, visited)
      | some node =>
        let r1 : Finset String × Finset Nat :=
          if node.Terminal then ({node.Tsym}, insert i visited)
          else Node.FirstF g fuel (entryLookup g node) (insert i visited)
        let r2 : Finset String × Finset Nat :=
          Node.FirstF g fuel node.Alt r1.2
        (r1.1 ∪ r2.1, r2.2)

/-- `Node.First` with the fuel instantiated at `g.nodes.length + 1`, which
is proved adequate below (`firstF_stable`): this is the function the Go
code computes. -/
def Node.First (g : Graph) (n : Option Nat) (visited : Finset Nat) :
    Finset String × Finset Nat :=
  Node.FirstF g (g.nodes.length + 1) n visited

/-- `Header.First` from the source: copies the symbols of
`h.Entry.First(visited)` into a fresh set (copying is the identity on
mathematical sets), passing the same visited map down. -/
def Header.First (g : Graph) (h : Header) (visited : Finset Nat) :
    Finset String × Finset Nat :=
  Node.First g h.Entry visited

/-- The grammar graph built by `example5` in the source:
`A ::= 'x' | '(' B ')'`, `B ::= A C`, `C ::= { '+' A }`.
Node indices: 0 `ε`, 1 `(`, 2 `+`, 3 `)`, 4 `x`, 5 the anonymous
`{Nsym: A, Suc: rParen}`, 6 `B`'s entry `{Nsym: A, Suc: 7}`,
7 `{Nsym: C}`, 8 the anonymous `{Nsym: A, Suc: plus}`.
Header indices: 0 `A`, 1 `B`, 2 `C`. -/
def example5 : Graph where
  nodes :=
    [ { Terminal := true, Tsym := "ε" },
      { Terminal := true, Tsym := "(", Suc := some 5 },
      { Terminal := true, Tsym := "+", Alt := some 0, Suc := some 8 },
      { Terminal := true, Tsym := ")" },
      { Terminal := true, Tsym := "x", Alt := some 1 },
      { Nsym := some 0, Suc := some 3 },
      { Nsym := some 0, Suc := some 7 },
      { Nsym := some 2 },
      { Nsym := some 0, Suc := some 2 } ]
  headers :=
    [ { Sym := "A", Entry := some 4 },
      { Sym := "B", Entry := some 6 },
      { Sym := "C", Entry := some 2 } ]

/-- The grammar graph built by `example5reduced` in the source:
`A ::= 'x' | '(' A { '+' A } ')'`.
Node indices: 0 `x`, 1 `(`, 2 `ε`, 3 `+`, 4 `)`,
5 `lParen.Suc = {Nsym: A, Suc: plus}`, 6 `plus.Suc = {Nsym: A, Suc: plus}`
(two distinct allocations in the Go source).
Header index 0 is `A`. -/
def example5reduced : Graph where
  nodes :=
    [ { Terminal := true, Tsym := "x" },
      { Terminal := true, Tsym := "(", Alt := some 0, Suc := some 5 },
      { Terminal := true, Tsym := "ε", Suc := some 4 },
      { Terminal := true, Tsym := "+", Alt := some 2, Suc := some 6 },
      { Terminal := true, Tsym := ")" },
      { Nsym := some 0, Suc := some 3 },
      { Nsym := some 0, Suc := some 3 } ]
  headers := [ { Sym := "A", Entry := some 1 } ]

/-- The header `A` returned by `example5reduced`. -/
def example5reducedA : Header := { Sym := "A", Entry := some 1 }

/-- The header `C` of `example5`. -/
def example5C : Header := { Sym := "C", Entry := some 2 }

/-- A call on the absent node returns the empty set and leaves the visited
set unchanged, at every fuel level. -/
lemma firstF_none (g : Graph) (f : Nat) (vis : Finset Nat) :
    Node.FirstF g f none vis = (∅, vis) := by
  cases f <;> rfl

/-- The visited set only grows during a call. -/
lemma firstF_visited_mono (g : Graph) :
    ∀ (f : Nat) (os : Option Nat) (vis : Finset Nat),
      vis ⊆ (Node.FirstF g f os vis).2 := by
  intro f
  induction f with
  | zero => intro os vis; cases os <;> exact Finset.Subset.refl _
  | succ f ih =>
    intro os vis
    cases os with
    | none => exact Finset.Subset.refl _
    | some i =>
      by_cases hi : i ∈ vis
      · simp [Node.FirstF, hi]
      · cases hnd : g.nodes[i]? with
        | none => simp [Node.FirstF, hi, hnd]
        | some node =>
          simp only [Node.FirstF, if_neg hi, hnd]
          have h1 : insert i vis ⊆ (if node.Terminal then ({node.Tsym}, insert i vis)
              else Node.FirstF g f (entryLookup g node) (insert i vis)).2 := by
            by_cases ht : node.Terminal
            · simp [ht]
            · simpa [ht] using ih (entryLookup g node) (insert i vis)
          exact ((Finset.subset_insert i vis).trans h1).trans (ih node.Alt _)

/-- The symbols a single node contributes when visited: its `Tsym` when it
is a terminal, nothing otherwise (and nothing for a dangling index). -/
def symContrib (g : Graph) (j : Nat) : Finset String :=
  match g.nodes[j]? with
  | some node => if node.Terminal then {node.Tsym} else ∅
  | none => ∅

/-- All symbols contributed by a set of node indices. -/
def symsOver (g : Graph) (s : Finset Nat) : Finset String :=
  s.biUnion (symContrib g)

lemma mem_symsOver {g : Graph} {x : String} {s : Finset Nat} :
    x ∈ symsOver g s ↔ ∃ j ∈ s, x ∈ symContrib g j :=
  Finset.mem_biUnion

lemma symsOver_union (g : Graph) (s t : Finset Nat) :
    symsOver g (s ∪ t) = symsOver g s ∪ symsOver g t := by
  ext x
  simp only [mem_symsOver, Finset.mem_union]
  constructor
  · rintro ⟨j, hj | hj, hx⟩
    · exact Or.inl ⟨j, hj, hx⟩
    · exact Or.inr ⟨j, hj, hx⟩
  · rintro (⟨j, hj, hx⟩ | ⟨j, hj, hx⟩)
    · exact ⟨j, Or.inl hj, hx⟩
    · exact ⟨j, Or.inr hj, hx⟩

lemma symsOver_singleton (g : Graph) (j : Nat) :
    symsOver g {j} = symContrib g j :=
  Finset.singleton_biUnion

/-- Each call returns exactly the symbols contributed by the nodes it newly
marked visited: the Go function's result set is determined by the set of
nodes the walk marks. -/
lemma firstF_syms (g : Graph) :
    ∀ (f : Nat) (os : Option Nat) (vis : Finset Nat),
      (Node.FirstF g f os vis).1 = symsOver g ((Node.FirstF g f os vis).2 \ vis) := by
  intro f
  induction f with
  | zero => intro os vis; cases os <;> simp [Node.FirstF, symsOver]
  | succ f ih =>
    intro os vis
    cases os with
    | none => simp [firstF_none, symsOver]
    | some i =>
      by_cases hi : i ∈ vis
      · simp [Node.FirstF, hi, symsOver]
      · cases hnd : g.nodes[i]? with
        | none => simp [Node.FirstF, hi, hnd, symsOver]
        | some node =>
          simp only [Node.FirstF, if_neg hi, hnd]
          by_cases ht : node.Terminal
          · simp only [ht, if_pos]
            have hmono := firstF_visited_mono g f node.Alt (insert i vis)
            have hdecomp :
                (Node.FirstF g f node.Alt (insert i vis)).2 \ vis =
                  ((Node.FirstF g f node.Alt (insert i vis)).2 \ insert i vis) ∪
                    (insert i vis \ vis) :=
              (Finset.sdiff_union_sdiff_cancel hmono
                (Finset.subset_insert i vis)).symm
            rw [hdecomp, symsOver_union, ← ih node.Alt (insert i vis),
              Finset.insert_sdiff_cancel hi, symsOver_singleton]
            have hc : symContrib g i = {node.Tsym} := by
              simp [symContrib, hnd, ht]
            rw [hc, Finset.union_comm]
          · simp only [ht, if_neg, Bool.false_eq_true, not_false_iff]
            have hm1 := firstF_visited_mono g f (entryLookup g node) (insert i vis)
            have hm2 := firstF_visited_mono g f node.Alt
              (Node.FirstF g f (entryLookup g node) (insert i vis)).2
            have hdecomp1 :
                (Node.FirstF g f node.Alt
                    (Node.FirstF g f (entryLookup g node) (insert i vis)).2).2 \ vis =
                  ((Node.FirstF g f node.Alt
                      (Node.FirstF g f (entryLookup g node) (insert i vis)).2).2 \
                    (Node.FirstF g f (entryLookup g node) (insert i vis)).2) ∪
                    ((Node.FirstF g f (entryLookup g node) (insert i vis)).2 \ vis) :=
              (Finset.sdiff_union_sdiff_cancel hm2
                (((Finset.subset_insert i vis).trans hm1))).symm
            have hdecomp2 :
                (Node.FirstF g f (entryLookup g node) (insert i vis)).2 \ vis =
                  ((Node.FirstF g f (entryLookup g node) (insert i vis)).2 \
                    insert i vis) ∪ (insert i vis \ vis) :=
              (Finset.sdiff_union_sdiff_cancel hm1 (Finset.subset_insert i vis)).symm
            rw [hdecomp1, hdecomp2, symsOver_union, symsOver_union,
              ← ih node.Alt _, ← ih (entryLookup g node) (insert i vis),
              Finset.insert_sdiff_cancel hi, symsOver_singleton]
            have hc : symContrib g i = ∅ := by
              simp [symContrib, hnd, ht]
            rw [hc, Finset.union_empty, Finset.union_comm]

lemma lt_length_of_getElem? {l : List Node} {i : Nat} {nd : Node}
    (h : l[i]? = some nd) : i < l.length := by
  by_contra h'
  rw [List.getElem?_eq_none (Nat.le_of_not_lt h')] at h
  cases h

/-- The number of valid node indices not yet visited: the measure that
shrinks every time the walk marks a node. -/
def unvis (g : Graph) (vis : Finset Nat) : Nat :=
  ((Finset.range g.nodes.length) \ vis).card

lemma unvis_le (g : Graph) (vis : Finset Nat) : unvis g vis ≤ g.nodes.length := by
  calc ((Finset.range g.nodes.length) \ vis).card
      ≤ (Finset.range g.nodes.length).card :=
        Finset.card_le_card Finset.sdiff_subset
    _ = g.nodes.length := Finset.card_range _

lemma unvis_insert (g : Graph) {vis : Finset Nat} {i : Nat}
    (hi : i ∉ vis) (hlt : i < g.nodes.length) :
    unvis g (insert i vis) + 1 = unvis g vis := by
  unfold unvis
  rw [Finset.sdiff_insert]
  have hmem : i ∈ Finset.range g.nodes.length \ vis :=
    Finset.mem_sdiff.mpr ⟨Finset.mem_range.mpr hlt, hi⟩
  rw [Finset.card_erase_of_mem hmem]
  have hpos : 0 < (Finset.range g.nodes.length \ vis).card :=
    Finset.card_pos.mpr ⟨i, hmem⟩
  omega

lemma unvis_mono (g : Graph) {vis vis' : Finset Nat} (h : vis ⊆ vis') :
    unvis g vis' ≤ unvis g vis :=
  Finset.card_le_card (Finset.sdiff_subset_sdiff (Finset.Subset.refl _) h)

/-- Fuel irrelevance: any two fuel values strictly above the number of
unvisited valid nodes produce the same result.  This is the termination of
the Go recursion: past the point where the visited set must have absorbed
every reachable node, extra recursion depth changes nothing. -/
lemma firstF_stable (g : Graph) :
    ∀ (f₁ f₂ : Nat) (os : Option Nat) (vis : Finset Nat),
      unvis g vis < f₁ → unvis g vis < f₂ →
      Node.FirstF g f₁ os vis = Node.FirstF g f₂ os vis := by
  intro f₁
  induction f₁ using Nat.strong_induction_on with
  | _ f₁ ih =>
    intro f₂ os vis h1 h2
    obtain ⟨f₁', rfl⟩ : ∃ k, f₁ = k + 1 := ⟨f₁ - 1, by omega⟩
    obtain ⟨f₂', rfl⟩ : ∃ k, f₂ = k + 1 := ⟨f₂ - 1, by omega⟩
    cases os with
    | none => rw [firstF_none, firstF_none]
    | some i =>
      by_cases hi : i ∈ vis
      · simp [Node.FirstF, hi]
      · cases hnd : g.nodes[i]? with
        | none => simp [Node.FirstF, hi, hnd]
        | some node =>
          have hlt : i < g.nodes.length := lt_length_of_getElem? hnd
          have hu : unvis g (insert i vis) + 1 = unvis g vis :=
            unvis_insert g hi hlt
          simp only [Node.FirstF, if_neg hi, hnd]
          by_cases ht : node.Terminal
          · have e2 : Node.FirstF g f₁' node.Alt (insert i vis) =
                Node.FirstF g f₂' node.Alt (insert i vis) :=
              ih f₁' (Nat.lt_succ_self _) f₂' node.Alt (insert i vis)
                (by omega) (by omega)
            simp [ht, e2]
          · have e1 : Node.FirstF g f₁' (entryLookup g node) (insert i vis) =
                Node.FirstF g f₂' (entryLookup g node) (insert i vis) :=
              ih f₁' (Nat.lt_succ_self _) f₂' (entryLookup g node) (insert i vis)
                (by omega) (by omega)
            have hm : insert i vis ⊆
                (Node.FirstF g f₂' (entryLookup g node) (insert i vis)).2 :=
              firstF_visited_mono g f₂' (entryLookup g node) (insert i vis)
            have hle : unvis g
                (Node.FirstF g f₂' (entryLookup g node) (insert i vis)).2 ≤
                unvis g (insert i vis) := unvis_mono g hm
            have e2 : Node.FirstF g f₁' node.Alt
                  (Node.FirstF g f₂' (entryLookup g node) (insert i vis)).2 =
                Node.FirstF g f₂' node.Alt
                  (Node.FirstF g f₂' (entryLookup g node) (insert i vis)).2 :=
              ih f₁' (Nat.lt_succ_self _) f₂' node.Alt _ (by omega) (by omega)
            simp only [ht, if_neg, Bool.false_eq_true, not_false_iff, e1, e2]

/-- Any fuel of at least `g.nodes.length + 1` computes `Node.First`. -/
lemma firstF_eq_first (g : Graph) (f : Nat) (os : Option Nat) (vis : Finset Nat)
    (hf : g.nodes.length + 1 ≤ f) :
    Node.FirstF g f os vis = Node.First g os vis :=
  firstF_stable g f (g.nodes.length + 1) os vis
    (by have := unvis_le g vis; omega) (by have := unvis_le g vis; omega)

/-- The edges the FIRST walk follows out of a node: into the referenced
header's entry for a non-terminal reference, and into the alternative.
The successor link `Suc` is never followed by the walk. -/
def firstSucc (g : Graph) (j : Nat) : List Nat :=
  match g.nodes[j]? with
  | none => []
  | some node =>
    (if node.Terminal then [] else (entryLookup g node).toList) ++ node.Alt.toList

/-- Reachability along the edges the FIRST walk follows, through valid
node indices. -/
inductive Reach (g : Graph) : Nat → Nat → Prop
  | refl (i : Nat) : (g.nodes[i]?).isSome → Reach g i i
  | tail (i j k : Nat) : Reach g i j → k ∈ firstSucc g j →
      (g.nodes[k]?).isSome → Reach g i k

lemma Reach.valid_src {g : Graph} {i j : Nat} (h : Reach g i j) :
    (g.nodes[i]?).isSome := by
  induction h with
  | refl hv => exact hv
  | tail j k hr hk hkv ih => exact ih

lemma Reach.valid_tgt {g : Graph} {i j : Nat} (h : Reach g i j) :
    (g.nodes[j]?).isSome := by
  induction h with
  | refl hv => exact hv
  | tail j k hr hk hkv ih => exact hkv

lemma Reach.head {g : Graph} {i j k : Nat} (hi : (g.nodes[i]?).isSome)
    (hj : j ∈ firstSucc g i) (h : Reach g j k) : Reach g i k := by
  induction h with
  | refl hv => exact Reach.tail i i j (Reach.refl i hi) hj hv
  | tail b c hr hb hv ih => exact Reach.tail i b c ih hb hv

lemma Reach.trans {g : Graph} {i j k : Nat} (h1 : Reach g i j)
    (h2 : Reach g j k) : Reach g i k := by
  induction h2 with
  | refl hv => exact h1
  | tail b c hr hb hv ih => exact Reach.tail i b c ih hb hv

/-- Soundness: every node the walk newly marks is reachable from the
starting node. -/
lemma firstF_visited_sound (g : Graph) :
    ∀ (f : Nat) (os : Option Nat) (vis : Finset Nat) (j : Nat),
      j ∈ (Node.FirstF g f os vis).2 →
      j ∈ vis ∨ ∃ s, os = some s ∧ Reach g s j := by
  intro f
  induction f with
  | zero => intro os vis j hj; cases os <;> exact Or.inl hj
  | succ f ih =>
    intro os vis j hj
    cases os with
    | none => exact Or.inl hj
    | some i =>
      by_cases hi : i ∈ vis
      · simp only [Node.FirstF, if_pos hi] at hj
        exact Or.inl hj
      · cases hnd : g.nodes[i]? with
        | none =>
          simp only [Node.FirstF, if_neg hi, hnd] at hj
          exact Or.inl hj
        | some node =>
          have hiv : (g.nodes[i]?).isSome := by rw [hnd]; rfl
          simp only [Node.FirstF, if_neg hi, hnd] at hj
          have hins : j ∈ insert i vis → j ∈ vis ∨ ∃ s,
              (some i : Option Nat) = some s ∧ Reach g s j := by
            intro hmem
            rcases Finset.mem_insert.mp hmem with rfl | hmem
            · exact Or.inr ⟨j, rfl, Reach.refl j hiv⟩
            · exact Or.inl hmem
          have hstep1 : j ∈ (if node.Terminal then
                (({node.Tsym} : Finset String), insert i vis)
              else Node.FirstF g f (entryLookup g node) (insert i vis)).2 →
              j ∈ vis ∨ ∃ s, (some i : Option Nat) = some s ∧ Reach g s j := by
            intro hmem
            by_cases ht : node.Terminal
            · rw [if_pos ht] at hmem
              exact hins hmem
            · rw [if_neg ht] at hmem
              rcases ih (entryLookup g node) (insert i vis) j hmem with
                hmem' | ⟨e, he, hr⟩
              · exact hins hmem'
              · refine Or.inr ⟨i, rfl, Reach.head hiv ?_ hr⟩
                simp [firstSucc, hnd, ht, he]
          rcases ih node.Alt _ j hj with hmem | ⟨a, ha, hr⟩
          · exact hstep1 hmem
          · refine Or.inr ⟨i, rfl, Reach.head hiv ?_ hr⟩
            simp [firstSucc, hnd, ha]

/-- A call on a valid unvisited node marks it (any positive fuel). -/
lemma firstF_marks (g : Graph) {f i : Nat} {vis : Finset Nat} {node : Node}
    (hf : 1 ≤ f) (hi : i ∉ vis) (hnd : g.nodes[i]? = some node) :
    i ∈ (Node.FirstF g f (some i) vis).2 := by
  obtain ⟨f', rfl⟩ : ∃ k, f = k + 1 := ⟨f - 1, by omega⟩
  simp only [Node.FirstF, if_neg hi, hnd]
  have h1 : insert i vis ⊆ (if node.Terminal then
      (({node.Tsym} : Finset String), insert i vis)
      else Node.FirstF g f' (entryLookup g node) (insert i vis)).2 := by
    by_cases ht : node.Terminal
    · simp [ht]
    · simpa [ht] using firstF_visited_mono g f' (entryLookup g node) (insert i vis)
  exact firstF_visited_mono g f' node.Alt _
    (h1 (Finset.mem_insert_self i vis))

/-- Completeness closure: with adequate fuel, the final visited set is
closed under the walk's edges at every newly marked node. -/
lemma firstF_closed (g : Graph) :
    ∀ (f : Nat) (os : Option Nat) (vis : Finset Nat), unvis g vis < f →
      ∀ j, j ∈ (Node.FirstF g f os vis).2 → j ∉ vis →
      ∀ k, k ∈ firstSucc g j → (g.nodes[k]?).isSome →
      k ∈ (Node.FirstF g f os vis).2 := by
  intro f
  induction f with
  | zero => intro os vis hf; omega
  | succ f ih =>
    intro os vis hf j hj hjv k hk hkv
    cases os with
    | none => exact absurd hj hjv
    | some i =>
      by_cases hi : i ∈ vis
      · simp only [Node.FirstF, if_pos hi] at hj ⊢
        exact absurd hj hjv
      · cases hnd : g.nodes[i]? with
        | none =>
          simp only [Node.FirstF, if_neg hi, hnd] at hj ⊢
          exact absurd hj hjv
        | some node =>
          have hlt : i < g.nodes.length := lt_length_of_getElem? hnd
          have hu : unvis g (insert i vis) + 1 = unvis g vis :=
            unvis_insert g hi hlt
          have hf1 : unvis g (insert i vis) < f := by omega
          obtain ⟨knode, hknode⟩ := Option.isSome_iff_exists.mp hkv
          simp only [Node.FirstF, if_neg hi, hnd] at hj ⊢
          by_cases ht : node.Terminal
          · simp only [if_pos ht] at hj ⊢
            rcases eq_or_ne j i with rfl | hne
            · -- the marked node itself: only the alternative edge leaves it
              have hak : node.Alt = some k := by
                simp only [firstSucc, hnd, if_pos ht, List.nil_append,
                  Option.mem_toList, Option.mem_def] at hk
                exact hk
              rw [hak]
              by_cases hkmem : k ∈ insert j vis
              · exact firstF_visited_mono g f (some k) (insert j vis) hkmem
              · exact firstF_marks g (by omega) hkmem hknode
            · have hjv1 : j ∉ insert i vis := by
                simp [Finset.mem_insert, hne, hjv]
              exact ih node.Alt (insert i vis) hf1 j hj hjv1 k hk hkv
          · simp only [if_neg ht] at hj ⊢
            have hm1 : insert i vis ⊆
                (Node.FirstF g f (entryLookup g node) (insert i vis)).2 :=
              firstF_visited_mono g f (entryLookup g node) (insert i vis)
            have hf2 : unvis g
                (Node.FirstF g f (entryLookup g node) (insert i vis)).2 < f :=
              lt_of_le_of_lt (unvis_mono g hm1) hf1
            rcases eq_or_ne j i with rfl | hne
            · have hk' : k ∈ (entryLookup g node).toList ++ node.Alt.toList := by
                simpa [firstSucc, hnd, ht] using hk
              rcases List.mem_append.mp hk' with hke | hka
              · have hek : entryLookup g node = some k := by
                  simpa [Option.mem_toList, Option.mem_def] using hke
                have hkin : k ∈
                    (Node.FirstF g f (entryLookup g node) (insert j vis)).2 := by
                  rw [hek]
                  by_cases hkmem : k ∈ insert j vis
                  · exact firstF_visited_mono g f (some k) (insert j vis) hkmem
                  · exact firstF_marks g (by omega) hkmem hknode
                exact firstF_visited_mono g f node.Alt _ hkin
              · have hak : node.Alt = some k := by
                  simpa [Option.mem_toList, Option.mem_def] using hka
                rw [hak]
                by_cases hkmem : k ∈
                    (Node.FirstF g f (entryLookup g node) (insert j vis)).2
                · exact firstF_visited_mono g f (some k) _ hkmem
                · exact firstF_marks g (by omega) hkmem hknode
            · have hjv1 : j ∉ insert i vis := by
                simp [Finset.mem_insert, hne, hjv]
              by_cases hj2 : j ∈
                  (Node.FirstF g f (entryLookup g node) (insert i vis)).2
              · have := ih (entryLookup g node) (insert i vis) hf1 j hj2 hjv1
                  k hk hkv
                exact firstF_visited_mono g f node.Alt _ this
              · exact ih node.Alt _ hf2 j hj hj2 k hk hkv

/-- Characterization of a top-level call (fresh visited map): a symbol is
in the FIRST set exactly when some node reachable from the start along the
walk's edges contributes it. -/
lemma first_char (g : Graph) (s : Nat) (x : String) :
    x ∈ (Node.First g (some s) ∅).1 ↔
      ∃ j, Reach g s j ∧ x ∈ symContrib g j := by
  have hout : ∀ j, Reach g s j →
      j ∈ (Node.FirstF g (g.nodes.length + 1) (some s) ∅).2 := by
    intro j hr
    induction hr with
    | refl hv =>
      obtain ⟨nd, hnd⟩ := Option.isSome_iff_exists.mp hv
      exact firstF_marks g (by omega) (Finset.not_mem_empty s) hnd
    | tail b c hr hb hcv ih =>
      exact firstF_closed g (g.nodes.length + 1) (some s) ∅
        (by have := unvis_le g (∅ : Finset Nat); omega) b ih
        (Finset.not_mem_empty b) c hb hcv
  rw [Node.First, firstF_syms]
  constructor
  · intro hx
    rcases mem_symsOver.mp hx with ⟨j, hj, hxj⟩
    have hj' := (Finset.mem_sdiff.mp hj).1
    rcases firstF_visited_sound g (g.nodes.length + 1) (some s) ∅ j hj' with
      hmem | ⟨s', hs', hr⟩
    · exact absurd hmem (Finset.not_mem_empty j)
    · cases hs'
      exact ⟨j, hr, hxj⟩
  · rintro ⟨j, hr, hxj⟩
    refine mem_symsOver.mpr ⟨j, ?_, hxj⟩
    rw [Finset.sdiff_empty]
    exact hout j hr

/-- Replace node `i` of the arena by `t` applied to it (identity when `i`
is dangling). -/
def updNode (g : Graph) (i : Nat) (t : Node → Node) : Graph :=
  match g.nodes[i]? with
  | some node => { g with nodes := g.nodes.set i (t node) }
  | none => g

/-- `g` with node `i`'s alternative link removed ("`n` without alt"). -/
def clearAlt (g : Graph) (i : Nat) : Graph :=
  updNode g i fun node => { node with Alt := none }

/-- `g` with node `i`'s successor link removed ("`n` without next"). -/
def clearSuc (g : Graph) (i : Nat) : Graph :=
  updNode g i fun node => { node with Suc := none }

lemma updNode_headers (g : Graph) (i : Nat) (t : Node → Node) :
    (updNode g i t).headers = g.headers := by
  unfold updNode
  cases g.nodes[i]? <;> rfl

lemma updNode_getElem? (g : Graph) (i : Nat) (t : Node → Node) (j : Nat) :
    (updNode g i t).nodes[j]? =
      if j = i then (g.nodes[j]?).map t else g.nodes[j]? := by
  cases hnd : g.nodes[i]? with
  | none =>
    have hg : updNode g i t = g := by
      unfold updNode; rw [hnd]
    rw [hg]
    by_cases hji : j = i
    · subst hji; rw [if_pos rfl, hnd]; rfl
    · rw [if_neg hji]
  | some node =>
    have hlt : i < g.nodes.length := lt_length_of_getElem? hnd
    have hg : updNode g i t = { g with nodes := g.nodes.set i (t node) } := by
      unfold updNode; rw [hnd]
    rw [hg]
    show (g.nodes.set i (t node))[j]? = _
    rw [List.getElem?_set]
    by_cases hij : i = j
    · subst hij
      rw [if_pos rfl, if_pos hlt, if_pos rfl, hnd]
      rfl
    · rw [if_neg hij, if_neg (fun h => hij h.symm)]

lemma updNode_isSome (g : Graph) (i : Nat) (t : Node → Node) (j : Nat) :
    ((updNode g i t).nodes[j]?).isSome = (g.nodes[j]?).isSome := by
  rw [updNode_getElem?]
  split
  · cases g.nodes[j]? <;> rfl
  · rfl

lemma updNode_entryLookup (g : Graph) (i : Nat) (t : Node → Node)
    (node : Node) :
    entryLookup (updNode g i t) node = entryLookup g node := by
  simp [entryLookup, updNode_headers]

lemma clearAlt_headers (g : Graph) (i : Nat) :
    (clearAlt g i).headers = g.headers :=
  updNode_headers g i _

lemma clearSuc_headers (g : Graph) (i : Nat) :
    (clearSuc g i).headers = g.headers :=
  updNode_headers g i _

lemma clearAlt_entryLookup (g : Graph) (i : Nat) (node : Node) :
    entryLookup (clearAlt g i) node = entryLookup g node :=
  updNode_entryLookup g i _ node

lemma clearSuc_entryLookup (g : Graph) (i : Nat) (node : Node) :
    entryLookup (clearSuc g i) node = entryLookup g node :=
  updNode_entryLookup g i _ node

lemma clearAlt_isSome (g : Graph) (i j : Nat) :
    ((clearAlt g i).nodes[j]?).isSome = (g.nodes[j]?).isSome :=
  updNode_isSome g i _ j

lemma clearAlt_symContrib (g : Graph) (i j : Nat) :
    symContrib (clearAlt g i) j = symContrib g j := by
  unfold symContrib
  rw [show (clearAlt g i).nodes[j]? = _ from updNode_getElem? g i _ j]
  by_cases hji : j = i
  · rw [if_pos hji]
    cases g.nodes[j]? <;> simp
  · rw [if_neg hji]

lemma clearAlt_firstSucc_ne {g : Graph} {i j : Nat} (hji : j ≠ i) :
    firstSucc (clearAlt g i) j = firstSucc g j := by
  have h := updNode_getElem? g i (fun node => { node with Alt := none }) j
  rw [if_neg hji] at h
  unfold firstSucc
  rw [show (clearAlt g i).nodes[j]? = g.nodes[j]? from h]
  cases g.nodes[j]? with
  | none => rfl
  | some node =>
    dsimp only
    rw [clearAlt_entryLookup]

lemma clearAlt_firstSucc_self {g : Graph} {i : Nat} {node : Node}
    (hnd : g.nodes[i]? = some node) :
    firstSucc (clearAlt g i) i =
      if node.Terminal then [] else (entryLookup g node).toList := by
  have h := updNode_getElem? g i (fun node => { node with Alt := none }) i
  rw [if_pos rfl, hnd] at h
  unfold firstSucc
  rw [show (clearAlt g i).nodes[i]? = _ from h]
  simp [clearAlt_entryLookup, entryLookup, clearAlt_headers]

/-- Dropping node `i`'s alternative link only removes paths: whatever is
reachable in the reduced graph is reachable in the original. -/
lemma reach_clearAlt_le {g : Graph} {i a b : Nat}
    (h : Reach (clearAlt g i) a b) : Reach g a b := by
  induction h with
  | refl hv => exact Reach.refl a (by rw [← clearAlt_isSome g i a]; exact hv)
  | tail b c hr hb hv ih =>
    have hv' : (g.nodes[c]?).isSome = true := by
      rw [← clearAlt_isSome g i c]; exact hv
    by_cases hbi : b = i
    · subst hbi
      have hbv : (g.nodes[b]?).isSome = true := by
        rw [← clearAlt_isSome g b b]; exact hr.valid_tgt
      obtain ⟨node, hnd⟩ := Option.isSome_iff_exists.mp hbv
      rw [clearAlt_firstSucc_self hnd] at hb
      refine Reach.tail a b c ih ?_ hv'
      unfold firstSucc
      rw [hnd]
      exact List.mem_append.mpr (Or.inl hb)
    · rw [clearAlt_firstSucc_ne hbi] at hb
      exact Reach.tail a b c ih hb hv'

/-- Path decomposition: a path from `i` in the full graph either stays a
path once `i`'s alternative link is dropped, or passes through that link,
in which case its tail is a path from the alternative `m`. -/
lemma reach_clearAlt_decomp {g : Graph} {i m x : Nat} {node : Node}
    (hnd : g.nodes[i]? = some node) (ham : node.Alt = some m)
    (h : Reach g i x) : Reach (clearAlt g i) i x ∨ Reach g m x := by
  induction h with
  | refl hv =>
    exact Or.inl (Reach.refl i (by rw [clearAlt_isSome g i i]; exact hv))
  | tail b c hr hb hv ih =>
    rcases ih with ih | ih
    · by_cases hbi : b = i
      · subst hbi
        have hb' : c ∈ (if node.Terminal then []
            else (entryLookup g node).toList) ++ node.Alt.toList := by
          unfold firstSucc at hb
          rw [hnd] at hb
          exact hb
        rcases List.mem_append.mp hb' with hbe | hba
        · refine Or.inl (Reach.tail b b c ih ?_
            (by rw [clearAlt_isSome g b c]; exact hv))
          rw [clearAlt_firstSucc_self hnd]
          exact hbe
        · rw [ham] at hba
          have : c = m := by simpa [Option.mem_toList] using hba
          subst this
          exact Or.inr (Reach.refl c hv)
      · refine Or.inl (Reach.tail i b c ih ?_
          (by rw [clearAlt_isSome g i c]; exact hv))
        rw [clearAlt_firstSucc_ne hbi]
        exact hb
    · exact Or.inr (Reach.tail m b c ih hb hv)

/-- Head decomposition of a path: it is empty, or its first edge leads to
a valid node from which the rest is a path. -/
lemma reach_cases {g : Graph} {s x : Nat} (h : Reach g s x) :
    x = s ∨ ∃ k, k ∈ firstSucc g s ∧ (g.nodes[k]?).isSome = true ∧
      Reach g k x := by
  induction h with
  | refl hv => exact Or.inl rfl
  | tail b c hr hb hv ih =>
    rcases ih with rfl | ⟨k, hk, hkv, hr'⟩
    · exact Or.inr ⟨c, hb, hv, Reach.refl c hv⟩
    · exact Or.inr ⟨k, hk, hkv, Reach.tail k b c hr' hb hv⟩

/-- The walk never reads the successor link: removing any node's `Suc`
changes nothing about the computation. -/
lemma firstF_clearSuc (g : Graph) (i : Nat) :
    ∀ (f : Nat) (os : Option Nat) (vis : Finset Nat),
      Node.FirstF (clearSuc g i) f os vis = Node.FirstF g f os vis := by
  intro f
  induction f with
  | zero => intro os vis; cases os <;> rfl
  | succ f ih =>
    intro os vis
    cases os with
    | none => rw [firstF_none, firstF_none]
    | some j =>
      by_cases hj : j ∈ vis
      · simp [Node.FirstF, hj]
      · cases hnd : g.nodes[j]? with
        | none =>
          have hnd' : (clearSuc g i).nodes[j]? = none := by
            rw [show (clearSuc g i).nodes[j]? = _ from updNode_getElem? g i _ j]
            split <;> simp [hnd]
          simp [Node.FirstF, hj, hnd, hnd']
        | some node =>
          by_cases hji : j = i
          · subst hji
            have hnd' : (clearSuc g j).nodes[j]? =
                some { node with Suc := none } := by
              rw [show (clearSuc g j).nodes[j]? = _ from
                updNode_getElem? g j _ j, if_pos rfl, hnd]
              rfl
            simp only [Node.FirstF, if_neg hj, hnd, hnd',
              clearSuc_entryLookup, entryLookup, clearSuc_headers, ih]
          · have hnd' : (clearSuc g i).nodes[j]? = some node := by
              rw [show (clearSuc g i).nodes[j]? = _ from
                updNode_getElem? g i _ j, if_neg hji, hnd]
            simp only [Node.FirstF, if_neg hj, hnd, hnd',
              clearSuc_entryLookup, entryLookup, clearSuc_headers, ih]

/-- The mutable state visible to the Go function: the heap of `Node` and
`Header` records plus the visited map.  The Go code reaches the heap
through pointers; carrying it as explicit state lets the absence of writes
to it be stated and proved. -/
structure MState where
  nodes : List Node
  headers : List Header
  visited : Finset Nat
deriving DecidableEq

/-- The grammar graph held in a state. -/
def MState.graph (st : MState) : Graph :=
  { nodes := st.nodes, headers := st.headers }

/-- `Node.First` in fully state-threading form: every read goes through
the carried state and the only write performed anywhere is
`visited[node] = true`, exactly as in the source. -/
def Node.FirstMut : Nat → Option Nat → MState → Finset String × MState
  | 0, _, st => (∅, st)
  | _ + 1, none, st => (∅, st)
  | fuel + 1, some i, st =>
    if i ∈ st.visited then (∅, st)
    else
      match st.nodes[i]? with
      | none => (∅, st)
      | some node =>
        let st1 : MState := { st with visited := insert i st.visited }
        let r1 : Finset String × MState :=
          if node.Terminal then ({node.Tsym}, st1)
          else Node.FirstMut fuel
            (node.Nsym.bind fun h => (st.headers[h]?).bind Header.Entry) st1
        let r2 : Finset String × MState :=
          Node.FirstMut fuel node.Alt r1.2
        (r1.1 ∪ r2.1, r2.2)

/-- The state-threading form touches neither the node heap nor the header
heap, and its result and final visited map are those of the pure
function. -/
lemma firstMut_spec :
    ∀ (f : Nat) (os : Option Nat) (st : MState),
      (Node.FirstMut f os st).2.nodes = st.nodes ∧
      (Node.FirstMut f os st).2.headers = st.headers ∧
      (Node.FirstMut f os st).1 = (Node.FirstF st.graph f os st.visited).1 ∧
      (Node.FirstMut f os st).2.visited =
        (Node.FirstF st.graph f os st.visited).2 := by
  intro f
  induction f with
  | zero => intro os st; cases os <;> exact ⟨rfl, rfl, rfl, rfl⟩
  | succ f ih =>
    intro os st
    cases os with
    | none => exact ⟨rfl, rfl, rfl, rfl⟩
    | some i =>
      by_cases hi : i ∈ st.visited
      · simp [Node.FirstMut, Node.FirstF, hi]
      · cases hnd : st.nodes[i]? with
        | none =>
          have hnd' : st.graph.nodes[i]? = none := hnd
          simp [Node.FirstMut, Node.FirstF, hi, hnd, hnd']
        | some node =>
          have hnd' : st.graph.nodes[i]? = some node := hnd
          have hE : entryLookup st.graph node =
              node.Nsym.bind fun h => (st.headers[h]?).bind Header.Entry := rfl
          simp only [Node.FirstMut, Node.FirstF, if_neg hi, hnd, hnd', hE]
          by_cases ht : node.Terminal
          · simp only [if_pos ht]
            obtain ⟨h2n, h2h, h2s, h2v⟩ :=
              ih node.Alt { st with visited := insert i st.visited }
            exact ⟨h2n, h2h, by rw [h2s]; rfl, by rw [h2v]; rfl⟩
          · simp only [if_neg ht]
            obtain ⟨h1n, h1h, h1s, h1v⟩ :=
              ih (node.Nsym.bind fun h => (st.headers[h]?).bind Header.Entry)
                { st with visited := insert i st.visited }
            obtain ⟨h2n, h2h, h2s, h2v⟩ :=
              ih node.Alt (Node.FirstMut f
                (node.Nsym.bind fun h => (st.headers[h]?).bind Header.Entry)
                { st with visited := insert i st.visited }).2
            have hgr : (Node.FirstMut f
                (node.Nsym.bind fun h => (st.headers[h]?).bind Header.Entry)
                { st with visited := insert i st.visited }).2.graph =
                st.graph := by
              unfold MState.graph
              rw [h1n, h1h]
            rw [hgr] at h2s h2v
            rw [h1v] at h2s h2v
            refine ⟨by rw [h2n, h1n], by rw [h2h, h1h], ?_, ?_⟩
            · rw [h2s, h1s]; rfl
            · rw [h2v]; rfl

lemma updNode_length (g : Graph) (i : Nat) (t : Node → Node) :
    (updNode g i t).nodes.length = g.nodes.length := by
  unfold updNode
  cases g.nodes[i]? with
  | none => rfl
  | some node => exact List.length_set g.nodes i (t node)

lemma clearSuc_length (g : Graph) (i : Nat) :
    (clearSuc g i).nodes.length = g.nodes.length :=
  updNode_length g i _

/-- A top-level call on a dangling index returns the empty result. -/
lemma first_invalid (g : Graph) (k : Nat) (hk : g.nodes[k]? = none) :
    Node.First g (some k) ∅ = (∅, ∅) := by
  rw [Node.First]
  simp [Node.FirstF, hk]

/-- A top-level call on a node that contributes nothing and has no
outgoing walk edge returns the empty set. -/
lemma first_no_edges (g : Graph) {i : Nat} (hcontrib : symContrib g i = ∅)
    (hfs : firstSucc g i = []) :
    (Node.First g (some i) ∅).1 = ∅ := by
  ext x
  simp only [Finset.not_mem_empty, iff_false]
  rw [first_char]
  rintro ⟨j, hr, hx⟩
  rcases reach_cases hr with rfl | ⟨k, hk, hkv, hr'⟩
  · rw [hcontrib] at hx
    exact absurd hx (Finset.not_mem_empty x)
  · rw [hfs] at hk
    cases hk

/-- A top-level call on a node that contributes nothing and whose only
walk edge goes to `k` returns exactly the FIRST set of `k`. -/
lemma first_single_edge (g : Graph) {i k : Nat} {node : Node}
    (hnd : g.nodes[i]? = some node) (hcontrib : symContrib g i = ∅)
    (hfs : firstSucc g i = [k]) :
    (Node.First g (some i) ∅).1 = (Node.First g (some k) ∅).1 := by
  by_cases hkv : (g.nodes[k]?).isSome = true
  · ext x
    rw [first_char g i x, first_char g k x]
    constructor
    · rintro ⟨j, hr, hx⟩
      rcases reach_cases hr with rfl | ⟨k', hk', hkv', hr'⟩
      · rw [hcontrib] at hx
        exact absurd hx (Finset.not_mem_empty x)
      · rw [hfs] at hk'
        have hkk : k' = k := by simpa using hk'
        subst hkk
        exact ⟨j, hr', hx⟩
    · rintro ⟨j, hr, hx⟩
      refine ⟨j, Reach.head (by rw [hnd]; rfl) ?_ hr, hx⟩
      rw [hfs]
      exact List.mem_singleton.mpr rfl
  · have hk : g.nodes[k]? = none := by
      cases h : g.nodes[k]? with
      | none => rfl
      | some nd => exact absurd (by rw [h]; rfl) hkv
    rw [first_invalid g k hk]
    ext x
    simp only [Finset.not_mem_empty, iff_false]
    rw [first_char]
    rintro ⟨j, hr, hx⟩
    rcases reach_cases hr with rfl | ⟨k', hk', hkv', hr'⟩
    · rw [hcontrib] at hx
      exact absurd hx (Finset.not_mem_empty x)
    · rw [hfs] at hk'
      have hkk : k' = k := by simpa using hk'
      subst hkk
      rw [hk] at hkv'
      cases hkv'

/-- Modelled from the spec: the code has no nullability predicate (the
spec's §9 open question); §6 reserves the distinguished string `ε` as the
empty symbol "signaling nullability".  A Header is taken to derive empty
when the distinguished empty symbol is among its FIRST symbols. -/
def Header.derivesEmpty (g : Graph) (h : Header) : Prop :=
  "ε" ∈ (Header.First g h ∅).1

instance (g : Graph) (h : Header) : Decidable (Header.derivesEmpty g h) :=
  inferInstanceAs (Decidable ("ε" ∈ (Header.First g h ∅).1))

/-- A three-node graph refuting the unrestricted sequence non-leak claim:
node 1 is a non-terminal reference to header `A` (whose FIRST set is
`{"a"}`, so it cannot derive empty) but carries an alternative link to the
terminal `b`, so its FIRST set gains `"b"`. -/
def cexGraph : Graph where
  nodes :=
    [ { Terminal := true, Tsym := "a" },
      { Nsym := some 0, Alt := some 2 },
      { Terminal := true, Tsym := "b" } ]
  headers := [ { Sym := "A", Entry := some 0 } ]

/-- The header `A` of `cexGraph`. -/
def cexA : Header := { Sym := "A", Entry := some 0 }

/-- A two-node graph exercising the non-terminal node with absent `Nsym`:
node 0 is a non-terminal reference with no referenced header and an
alternative link to the terminal `b`. -/
def c10g : Graph where
  nodes := [ { Alt := some 1 }, { Terminal := true, Tsym := "b" } ]
  headers := []

/-- Claim C1: for the worked-example grammar `A ::= 'x' | '(' A {'+' A} ')'`
as built by `example5reduced`, calling `First` on header `A` with a fresh
(empty) visited map returns exactly the set of the symbols `x` and `(`. -/
theorem claim_C1_example5reduced_first :
    (Header.First example5reduced example5reducedA ∅).1 = {"x", "("} := by
  decide

/-- Claim C2: calling `First` on a starting Header with no entry point
defined yet (absent `Entry`) yields the empty result set — the total
function returns rather than faulting — and leaves the visited record
unchanged. -/
theorem claim_C2_absent_entry (g : Graph) (h : Header) (vis : Finset Nat)
    (he : h.Entry = none) : Header.First g h vis = (∅, vis) := by
  rw [Header.First, he, Node.First, firstF_none]

theorem claim_C2_witness :
    ({ Sym := "D", Entry := none } : Header).Entry = none ∧
    Header.First example5 { Sym := "D", Entry := none } ∅ = (∅, ∅) :=
  ⟨rfl, claim_C2_absent_entry example5 { Sym := "D", Entry := none } ∅ rfl⟩

/-- Claim C3: for every finite grammar graph — including entry graphs with
a repetition self-link through `next` and graphs with mutual non-terminal
recursion — the walk terminates: every recursion budget of at least
`g.nodes.length + 1` yields one and the same result, `Node.First`, whose
symbol component is a finite set by construction (`Finset`).  The bound is
structural (the visited set), not a time bound. -/
theorem claim_C3_terminates (g : Graph) (f : Nat) (os : Option Nat)
    (vis : Finset Nat) (hf : g.nodes.length + 1 ≤ f) :
    Node.FirstF g f os vis = Node.First g os vis :=
  firstF_eq_first g f os vis hf

theorem claim_C3_witness :
    example5.nodes.length + 1 ≤ 12 ∧
    Node.FirstF example5 12 (some 2) ∅ = Node.First example5 (some 2) ∅ :=
  ⟨by decide, claim_C3_terminates example5 12 (some 2) ∅ (by decide)⟩

/-- Claim C4 is refuted as stated: node 1 of `cexGraph` is a non-terminal
reference whose referenced header cannot derive empty, yet its FIRST set
differs from the header's because of its alternative link. -/
theorem claim_C4_counterexample :
    cexGraph.nodes[1]? = some { Nsym := some 0, Alt := some 2 } ∧
    ({ Nsym := some 0, Alt := some 2 } : Node).Terminal = false ∧
    cexGraph.headers[0]? = some cexA ∧
    ¬ Header.derivesEmpty cexGraph cexA ∧
    (Node.First cexGraph (some 1) ∅).1 ≠ (Header.First cexGraph cexA ∅).1 := by
  refine ⟨rfl, rfl, rfl, ?_, ?_⟩ <;> decide

/-- Claim C4 (amended): for a non-terminal reference node `n` with no
alternative link, `first(n)` with a fresh visited map equals
`first(n.nonTerminalRef)` — whether or not the referenced header can
derive empty — and the walk never reads `n.next`: clearing the successor
link leaves the FIRST set unchanged, so no symbol reachable only through
`n.next` is ever included. -/
theorem claim_C4_amended (g : Graph) (i : Nat) (node : Node) (h : Nat)
    (hd : Header) (hnd : g.nodes[i]? = some node)
    (ht : node.Terminal = false) (ha : node.Alt = none)
    (hh : node.Nsym = some h) (hhd : g.headers[h]? = some hd) :
    (Node.First g (some i) ∅).1 = (Header.First g hd ∅).1 ∧
    (Node.First (clearSuc g i) (some i) ∅).1 =
      (Node.First g (some i) ∅).1 := by
  constructor
  · have hctr : symContrib g i = ∅ := by simp [symContrib, hnd, ht]
    cases hEn : hd.Entry with
    | none =>
      have hel : entryLookup g node = none := by
        simp [entryLookup, hh, hhd, hEn]
      have hfs : firstSucc g i = [] := by
        simp [firstSucc, hnd, ht, hel, ha]
      rw [first_no_edges g hctr hfs, Header.First, hEn, Node.First,
        firstF_none]
    | some e =>
      have hel : entryLookup g node = some e := by
        simp [entryLookup, hh, hhd, hEn]
      have hfs : firstSucc g i = [e] := by
        simp [firstSucc, hnd, ht, hel, ha]
      rw [Header.First, hEn]
      exact first_single_edge g hnd hctr hfs
  · show (Node.FirstF (clearSuc g i) ((clearSuc g i).nodes.length + 1)
      (some i) ∅).1 = _
    rw [clearSuc_length, firstF_clearSuc]
    rfl

theorem claim_C4_witness :
    example5.nodes[7]? = some { Nsym := some 2 } ∧
    ((Node.First example5 (some 7) ∅).1 =
      (Header.First example5 example5C ∅).1 ∧
     (Node.First (clearSuc example5 7) (some 7) ∅).1 =
      (Node.First example5 (some 7) ∅).1) :=
  ⟨rfl, claim_C4_amended example5 7 { Nsym := some 2 } 2 example5C
    rfl rfl rfl rfl rfl⟩

/-- Claim C5: choice union law — for a node `n` with `alt = m`, the FIRST
set of `n` is the union of the FIRST set of `n` with its alternative link
removed and the FIRST set of `m`, each computed with its own fresh visited
map. -/
theorem claim_C5_choice_union (g : Graph) (i m : Nat) (node : Node)
    (hnd : g.nodes[i]? = some node) (ham : node.Alt = some m)
    (_hm : (g.nodes[m]?).isSome = true) :
    (Node.First g (some i) ∅).1 =
      (Node.First (clearAlt g i) (some i) ∅).1 ∪
        (Node.First g (some m) ∅).1 := by
  ext x
  rw [Finset.mem_union, first_char g i x, first_char (clearAlt g i) i x,
    first_char g m x]
  constructor
  · rintro ⟨j, hr, hx⟩
    rcases reach_clearAlt_decomp hnd ham hr with h' | h'
    · exact Or.inl ⟨j, h', by rw [clearAlt_symContrib]; exact hx⟩
    · exact Or.inr ⟨j, h', hx⟩
  · rintro (⟨j, hr, hx⟩ | ⟨j, hr, hx⟩)
    · rw [clearAlt_symContrib] at hx
      exact ⟨j, reach_clearAlt_le hr, hx⟩
    · have hiv : (g.nodes[i]?).isSome = true := by rw [hnd]; rfl
      have hmem : m ∈ firstSucc g i := by
        unfold firstSucc
        rw [hnd]
        refine List.mem_append.mpr (Or.inr ?_)
        rw [ham]
        exact Option.mem_toList.mpr rfl
      exact ⟨j, Reach.head hiv hmem hr, hx⟩

theorem claim_C5_witness :
    example5reduced.nodes[1]? =
      some { Terminal := true, Tsym := "(", Alt := some 0, Suc := some 5 } ∧
    (example5reduced.nodes[0]?).isSome = true ∧
    (Node.First example5reduced (some 1) ∅).1 =
      (Node.First (clearAlt example5reduced 1) (some 1) ∅).1 ∪
        (Node.First example5reduced (some 0) ∅).1 :=
  ⟨rfl, rfl, claim_C5_choice_union example5reduced 1 0 _ rfl rfl rfl⟩

/-- Claim C6: for the repetition header `C` of `example5` (entry `+`, with
`+.alt` the `ε` terminal and `+.next` looping back through a reference to
`A`), the walk terminates on the cyclic structure and returns exactly the
symbols `+` and `ε`; the `ε` symbol appears in the result as an ordinary
terminal, not stripped or special-cased. -/
theorem claim_C6_repetition_first :
    (Header.First example5 example5C ∅).1 = {"+", "ε"} := by
  decide

/-- Claim C7: calling `First` on the absent (nil) node returns the empty
set (and leaves the visited record unchanged). -/
theorem claim_C7_first_nil (g : Graph) (vis : Finset Nat) :
    Node.First g none vis = (∅, vis) := by
  rw [Node.First, firstF_none]

/-- Claim C8: determinism — on an unchanged graph, two top-level calls on
the same starting node, each with its own fresh (reset) visited record and
each free to use any sufficient recursion budget, return equal results;
in particular equal symbol sets.  A Header call is the entry-node call, so
this covers Headers as well. -/
theorem claim_C8_deterministic (g : Graph) (os : Option Nat) (f₁ f₂ : Nat)
    (h₁ : g.nodes.length + 1 ≤ f₁) (h₂ : g.nodes.length + 1 ≤ f₂) :
    Node.FirstF g f₁ os ∅ = Node.FirstF g f₂ os ∅ := by
  rw [firstF_eq_first g f₁ os ∅ h₁, firstF_eq_first g f₂ os ∅ h₂]

theorem claim_C8_witness :
    example5reduced.nodes.length + 1 ≤ 8 ∧
    example5reduced.nodes.length + 1 ≤ 20 ∧
    Node.FirstF example5reduced 8 (some 1) ∅ =
      Node.FirstF example5reduced 20 (some 1) ∅ :=
  ⟨by decide, by decide,
    claim_C8_deterministic example5reduced (some 1) 8 20
      (by decide) (by decide)⟩

/-- Claim C9: `First` has no side effects on the grammar graph.  In the
state-threading form, after any call the node heap and the header heap —
hence every node's `Terminal`, `Tsym`, `Nsym`, `Suc`, `Alt` and every
header's `Sym` and `Entry` — are exactly as before, and the only mutated
state, the per-call visitation record, evolves exactly as the pure
function prescribes. -/
theorem claim_C9_no_graph_mutation (f : Nat) (os : Option Nat)
    (st : MState) :
    (Node.FirstMut f os st).2.nodes = st.nodes ∧
    (Node.FirstMut f os st).2.headers = st.headers ∧
    (Node.FirstMut f os st).2.visited =
      (Node.FirstF st.graph f os st.visited).2 :=
  ⟨(firstMut_spec f os st).1, (firstMut_spec f os st).2.1,
    (firstMut_spec f os st).2.2.2⟩

/-- Claim C10: for a non-terminal node whose `Nsym` is absent, or whose
referenced header has an absent `Entry` (the guard
`node.Nsym != nil && node.Nsym.Entry != nil` fails), the total function
returns without faulting, the non-terminal branch contributes nothing, and
the result is the FIRST set of `n.Alt` — the empty set when `Alt` is also
absent, since `First` of the absent node is empty. -/
theorem claim_C10_absent_nsym (g : Graph) (i : Nat) (node : Node)
    (hnd : g.nodes[i]? = some node) (ht : node.Terminal = false)
    (he : entryLookup g node = none) :
    (Node.First g (some i) ∅).1 = (Node.First g node.Alt ∅).1 := by
  have hctr : symContrib g i = ∅ := by simp [symContrib, hnd, ht]
  cases ha : node.Alt with
  | none =>
    have hfs : firstSucc g i = [] := by simp [firstSucc, hnd, ht, he, ha]
    rw [first_no_edges g hctr hfs, Node.First, firstF_none]
  | some a =>
    have hfs : firstSucc g i = [a] := by simp [firstSucc, hnd, ht, he, ha]
    exact first_single_edge g hnd hctr hfs

theorem claim_C10_witness :
    c10g.nodes[0]? = some { Alt := some 1 } ∧
    ({ Alt := some 1 } : Node).Terminal = false ∧
    entryLookup c10g { Alt := some 1 } = none ∧
    (Node.First c10g (some 0) ∅).1 =
      (Node.First c10g ({ Alt := some 1 } : Node).Alt ∅).1 :=
  ⟨rfl, rfl, rfl, claim_C10_absent_nsym c10g 0 { Alt := some 1 } rfl rfl rfl⟩

end GrammarFirst
